import Mathlib

/-!
Verification of the hybrid retrieval engine of the NovsuChatbot repository
(`utils.clean_text` and `neural_searcher.NeuralSearcher`), shallowly embedded
in Lean 4.  Strings are modelled as `List Char`; the modelled character set is
ASCII plus the Cyrillic block (the repository's domain): `Python`'s `str.lower`
is a lookup table over ASCII and Cyrillic capitals, `\w` is ASCII alphanumerics,
underscore and Cyrillic letters, `\s` is the six ASCII whitespace characters.
Scores are exact rationals (`ℚ`); the external sentence embedder / FAISS call
and the rapidfuzz `process.extract` call are modelled as inputs (an `Except`
value for the embedder, a scored candidate list for `extract`), with their
library contracts taken as hypotheses where a property needs them.
-/

set_option maxRecDepth 40000

namespace Novsu

/-- Lower-casing table: ASCII capitals and Cyrillic capitals (А..Я and Ё),
modelling `str.lower` on the modelled character set. -/
def lowerPairs : List (Char × Char) :=
  [('A','a'),('B','b'),('C','c'),('D','d'),('E','e'),('F','f'),('G','g'),
   ('H','h'),('I','i'),('J','j'),('K','k'),('L','l'),('M','m'),('N','n'),
   ('O','o'),('P','p'),('Q','q'),('R','r'),('S','s'),('T','t'),('U','u'),
   ('V','v'),('W','w'),('X','x'),('Y','y'),('Z','z'),
   ('А','а'),('Б','б'),('В','в'),('Г','г'),('Д','д'),('Е','е'),('Ж','ж'),
   ('З','з'),('И','и'),('Й','й'),('К','к'),('Л','л'),('М','м'),('Н','н'),
   ('О','о'),('П','п'),('Р','р'),('С','с'),('Т','т'),('У','у'),('Ф','ф'),
   ('Х','х'),('Ц','ц'),('Ч','ч'),('Ш','ш'),('Щ','щ'),('Ъ','ъ'),('Ы','ы'),
   ('Ь','ь'),('Э','э'),('Ю','ю'),('Я','я'),('Ё','ё')]

/-- `str.lower` on one character (identity outside the table). -/
def pyToLower (c : Char) : Char := (lowerPairs.lookup c).getD c

/-- Python regex `\s` (ASCII part). -/
def pySpaceChar (c : Char) : Bool :=
  c == ' ' || c == '\t' || c == '\n' || c == '\r' || c == '\x0b' || c == '\x0c'

/-- Python regex `\w`: alphanumerics, underscore, and (modelled) Cyrillic
letters.  `[^\w\s\d]` keeps exactly `\w`-or-`\s` characters since `\d ⊆ \w`. -/
def pyWordChar (c : Char) : Bool :=
  c.isAlphanum || c == '_' || (decide ('А' ≤ c) && decide (c ≤ 'я')) || c == 'ё' || c == 'Ё'

/-- The character class kept by `re.sub(r'[^\w\s\d]', ' ', ·)`. -/
def keepChar (c : Char) : Bool := pyWordChar c || pySpaceChar c

/-- `re.sub(r'\s+', ' ', ·)`: each maximal whitespace run becomes one space
(the single space is emitted at the end of the run, which yields the same
string). -/
def collapseSpaces : List Char → List Char
  | [] => []
  | [c] => if pySpaceChar c then [' '] else [c]
  | c :: d :: rest =>
    if pySpaceChar c then
      if pySpaceChar d then collapseSpaces (d :: rest)
      else ' ' :: collapseSpaces (d :: rest)
    else c :: collapseSpaces (d :: rest)

/-- `str.strip()`: drop leading and trailing whitespace. -/
def stripWs (s : List Char) : List Char :=
  ((s.dropWhile pySpaceChar).reverse.dropWhile pySpaceChar).reverse

/-- The `clean_text` pipeline, parameterized by the kept character class (the
parameter lets the spec's description of the class be compared with the
source's). -/
def normalizeWith (keep : Char → Bool) (s : List Char) : List Char :=
  if s = [] then []
  else stripWs (collapseSpaces ((s.map pyToLower).map (fun c => if keep c then c else ' ')))

/-- `utils.clean_text`: lower-case, replace every character matching
`[^\w\s\d]` by a space, collapse whitespace runs, strip ends. -/
def clean_text (s : List Char) : List Char := normalizeWith keepChar s

/-- Modelled letters (any script) for the spec's wording in §4.1. -/
def specLetter (c : Char) : Bool :=
  c.isAlpha || (decide ('А' ≤ c) && decide (c ≤ 'я')) || c == 'ё' || c == 'Ё'

/-- The character class the spec's §4.1 sentence describes: letter, digit, or
whitespace (everything else becomes a space). -/
def specKeepClaim (c : Char) : Bool := specLetter c || c.isDigit || pySpaceChar c

/-- The normalizer exactly as the spec's §4.1 sentence describes it. -/
def specNormClaim (s : List Char) : List Char := normalizeWith specKeepClaim s

/-- The amended kept class: letter, digit, underscore, or whitespace (Python's
`\w` also keeps the underscore). -/
def specKeepAmended (c : Char) : Bool := specLetter c || c.isDigit || c == '_' || pySpaceChar c

/-- The normalizer as the amended §4.1 sentence describes it. -/
def specNormAmended (s : List Char) : List Char := normalizeWith specKeepAmended s

/-- `NeuralSearcher.STOP_WORDS`, transcribed from the source. -/
def STOP_WORDS : List (List Char) :=
  (["как", "что", "где", "когда", "почему", "зачем", "какой", "какая", "какое", "какие",
    "кто", "чей", "чья", "чьё", "чьи", "сколько", "который", "которая", "которое",
    "это", "этот", "эта", "эти", "тот", "та", "то", "те",
    "мой", "моя", "моё", "мои", "твой", "твоя", "твоё", "твои",
    "наш", "наша", "наше", "наши", "ваш", "ваша", "ваше", "ваши",
    "его", "её", "их", "свой", "своя", "своё", "свои",
    "весь", "вся", "всё", "все", "сам", "сама", "само", "сами",
    "быть", "есть", "был", "была", "было", "были", "будет", "будут",
    "можно", "нужно", "надо", "нельзя", "должен", "хочу", "хочет", "могу", "может",
    "для", "без", "при", "про", "под", "над", "перед", "после", "между",
    "очень", "уже", "ещё", "еще", "тоже", "также", "только", "даже", "именно",
    "или", "либо", "однако", "поэтому", "потому", "если", "чтобы",
    "меня", "тебя", "себя", "нас", "вас", "них", "ним", "ней",
    "мне", "тебе", "себе", "нам", "вам", "ему", "ей", "им",
    "бы", "же", "ли", "не", "ни", "да", "нет",
    "вот", "вон", "там", "тут", "здесь", "туда", "сюда", "откуда", "куда",
    "так", "такой", "такая", "такое", "такие", "столько",
    "ну", "ага", "угу", "ладно", "хорошо", "плохо", "нормально",
    "пока", "спасибо", "пожалуйста"] : List String).map String.toList

/-- One record of the knowledge base (§3 `KnowledgeItem`). -/
structure KnowledgeItem where
  question : List Char
  variations : List (List Char)
  keywords : List (List Char)
  answer : List Char
  category : List Char
deriving DecidableEq, Repr

/-- `str.split()` on cleaned text: split on spaces, dropping empty tokens
(all call sites split a `clean_text` output, whose only whitespace is a
single space). -/
def splitWordsGo : List Char → List Char → List (List Char)
  | [], acc => if acc = [] then [] else [acc.reverse]
  | c :: rest, acc =>
    if c = ' ' then
      if acc = [] then splitWordsGo rest [] else acc.reverse :: splitWordsGo rest []
    else splitWordsGo rest (c :: acc)

/-- `str.split()` (see `splitWordsGo`). -/
def splitWords (s : List Char) : List (List Char) := splitWordsGo s []

/-- `NeuralSearcher._get_significant_words`: the set of cleaned tokens that
are neither stop-words nor of length ≤ 2.  The Python `set` is modelled as a
deduplicated list; only membership, emptiness and cardinality are ever used. -/
def get_significant_words (text : List Char) : List (List Char) :=
  ((splitWords (clean_text text)).dedup).filter
    (fun w => decide (w ∉ STOP_WORDS ∧ 2 < w.length))

/-- `NeuralSearcher._add_to_index`: register a phrase unless empty or already
present (first registration wins). -/
def addPhrase (ps : List (List Char × KnowledgeItem)) (text : List Char)
    (it : KnowledgeItem) : List (List Char × KnowledgeItem) :=
  if text ≠ [] ∧ text ∉ ps.map Prod.fst then ps ++ [(text, it)] else ps

/-- The phrase index built by `_prepare_search_index`: `all_questions` is the
key list in insertion order, `question_to_answer` is lookup in this
association list. -/
def buildPhrases (kb : List KnowledgeItem) : List (List Char × KnowledgeItem) :=
  kb.foldl (fun ps it =>
    it.variations.foldl (fun ps v => addPhrase ps (clean_text v) it)
      (addPhrase ps (clean_text it.question) it)) []

/-- Python `dict` assignment: a new key is appended, an existing key keeps its
position and gets the new value (last write wins, first-insertion order). -/
def upsert (k : List Char) (v : KnowledgeItem) :
    List (List Char × KnowledgeItem) → List (List Char × KnowledgeItem)
  | [] => [(k, v)]
  | (k', v') :: rest => if k' = k then (k', v) :: rest else (k', v') :: upsert k v rest

/-- `hardcoded_keywords_map` built by `_prepare_search_index`: every non-empty
cleaned keyword maps to its item. -/
def buildKeywords (kb : List KnowledgeItem) : List (List Char × KnowledgeItem) :=
  kb.foldl (fun tbl it =>
    it.keywords.foldl (fun tbl kw =>
      let k := clean_text kw
      if k = [] then tbl else upsert k it tbl) tbl) []

/-- `set.add`: insert unless present (Python set modelled as a list; only
membership is ever used). -/
def addWord (s : List (List Char)) (w : List Char) : List (List Char) :=
  if w ∈ s then s else w :: s

/-- Keyword contribution to the vocabulary: the whole cleaned keyword, when
longer than 2 (no stop-word check and no tokenization on this path). -/
def addKw (s : List (List Char)) (kw : List Char) : List (List Char) :=
  let w := clean_text kw
  if 2 < w.length then addWord s w else s

/-- Question/variation token contribution to the vocabulary: the token, when
not a stop-word and longer than 3. -/
def addTok (s : List (List Char)) (w : List Char) : List (List Char) :=
  if w ∉ STOP_WORDS ∧ 3 < w.length then addWord s w else s

/-- One item's pass of `_build_keyword_index`: keywords, then variation
tokens, then question tokens. -/
def itemWords (s : List (List Char)) (it : KnowledgeItem) : List (List Char) :=
  (splitWords (clean_text it.question)).foldl addTok
    (it.variations.foldl (fun s v => (splitWords (clean_text v)).foldl addTok s)
      (it.keywords.foldl addKw s))

/-- `NeuralSearcher._build_keyword_index`: the `significant_words` vocabulary. -/
def build_significant_words (kb : List KnowledgeItem) : List (List Char) :=
  kb.foldl itemWords []

/-- The index structures a `NeuralSearcher` owns after construction. -/
structure SearcherState where
  phrases : List (List Char × KnowledgeItem)
  keywordTable : List (List Char × KnowledgeItem)
  significantWords : List (List Char)
deriving Repr

/-- Index construction (`_prepare_search_index` + `_build_keyword_index`). -/
def buildState (kb : List KnowledgeItem) : SearcherState :=
  ⟨buildPhrases kb, buildKeywords kb, build_significant_words kb⟩

/-- `self.all_questions`. -/
def allQuestions (st : SearcherState) : List (List Char) := st.phrases.map Prod.fst

/-- Placeholder item for the unreachable failed-lookup branch: every indexed
phrase is registered in `question_to_answer` at construction. -/
def defaultItem : KnowledgeItem := ⟨[], [], [], [], []⟩

/-- `self.question_to_answer[text]`. -/
def questionToAnswer (st : SearcherState) (text : List Char) : KnowledgeItem :=
  (st.phrases.lookup text).getD defaultItem

/-- `NeuralSearcher._has_relevant_words`: gate on shared vocabulary; with no
significant query words, fall back to keyword-table membership of the whole
cleaned query; otherwise accept on exact vocabulary membership or on the
5-character-prefix stemming heuristic for words longer than 4. -/
def has_relevant_words (st : SearcherState) (query : List Char) : Bool :=
  let qws := get_significant_words query
  if qws = [] then
    decide (clean_text query ∈ st.keywordTable.map Prod.fst)
  else
    qws.any (fun w =>
      st.significantWords.contains w ||
      (if 4 < w.length then
        st.significantWords.any (fun sw =>
          decide (4 < sw.length) && List.isPrefixOf (w.take 5) sw)
      else false))

/-- The gate as amended for C10: the keyword-table fallback branch removed. -/
def hasRelevantNoFallback (st : SearcherState) (query : List Char) : Bool :=
  let qws := get_significant_words query
  if qws = [] then false
  else
    qws.any (fun w =>
      st.significantWords.contains w ||
      (if 4 < w.length then
        st.significantWords.any (fun sw =>
          decide (4 < sw.length) && List.isPrefixOf (w.take 5) sw)
      else false))

/-- Contribution of one query word under the prefix-stemming rule (the inner
`for mw in matched_words: ... break` loop of `_calculate_word_overlap`). -/
def stemContrib (qw : List Char) (mws : List (List Char)) : ℚ :=
  if 4 < qw.length ∧ mws.any (fun mw => decide (4 < mw.length) && List.isPrefixOf (qw.take 5) mw)
  then 7/10 else 0

/-- `NeuralSearcher._calculate_word_overlap`: fraction of significant query
words found (verbatim: 1, by 5-character prefix: 0.7) among the candidate's
significant words; 0 when the query has none. -/
def calculate_word_overlap (query matched : List Char) : ℚ :=
  let qws := get_significant_words query
  let mws := get_significant_words matched
  if qws = [] then 0
  else (qws.foldl (fun acc qw => acc + (if qw ∈ mws then 1 else stemContrib qw mws)) 0)
       / qws.length

/-- One row of the longest-common-subsequence table (`prev` row split into the
diagonal entry, the remaining entries, and the already computed left
neighbour). -/
def lcsRowAux (x : Char) : List Char → List Nat → Nat → Nat → List Nat
  | [], _, _, _ => []
  | _ :: _, [], _, _ => []
  | y :: ys, p :: ps, diag, left =>
    let cur := if x = y then diag + 1 else max left p
    cur :: lcsRowAux x ys ps p cur

/-- Longest common subsequence length, by dynamic programming. -/
def lcs (xs ys : List Char) : Nat :=
  (xs.foldl (fun row x =>
      match row with
      | [] => []
      | p0 :: ps => 0 :: lcsRowAux x ys ps p0 0)
    (List.replicate (ys.length + 1) 0)).getLastD 0

/-- `rapidfuzz.fuzz.ratio`: the normalized indel similarity on a 0–100 scale,
`200·lcs/(|a|+|b|)` (100 when both strings are empty). -/
def fuzzRatioScore (a b : List Char) : ℚ :=
  if a.length + b.length = 0 then 100
  else 200 * (lcs a b : ℚ) / (a.length + b.length)

/-- The tags of `SearchResult.match_type`. -/
inductive MatchType where
  | keyword_exact | keyword_fuzzy | keyword_contains | query_in_keyword | neural | fuzzy
deriving DecidableEq, Repr

/-- One search result (the heterogeneous Python dict as a record; diagnostic
fields are `none` on the keyword paths, `raw_score` is `none` on the fuzzy
path). -/
structure SearchResult where
  question : List Char
  answer : List Char
  score : ℚ
  match_type : MatchType
  raw_score : Option ℚ
  matched_variation : Option (List Char)
  word_overlap : Option ℚ
deriving DecidableEq, Repr

deriving instance DecidableEq for Except

/-- The four per-keyword checks of the `_check_keywords` loop body, in source
order: exact equality, `fuzz.ratio > 92`, keyword-in-query (keyword longer
than 5), query-in-keyword (query longer than 3). -/
def checkKeyword (q k : List Char) (it : KnowledgeItem) : Option SearchResult :=
  if q = k then
    some ⟨it.question, it.answer, 1, .keyword_exact, none, none, none⟩
  else if 92 < fuzzRatioScore q k then
    some ⟨it.question, it.answer, 49/50, .keyword_fuzzy, none, none, none⟩
  else if 5 < k.length ∧ k <:+: q then
    some ⟨it.question, it.answer, 19/20, .keyword_contains, none, none, none⟩
  else if 3 < q.length ∧ q <:+: k then
    some ⟨it.question, it.answer, 9/10, .query_in_keyword, none, none, none⟩
  else none

/-- `NeuralSearcher._check_keywords`: first keyword (in table iteration
order) for which any of the four checks fires. -/
def check_keywords (st : SearcherState) (q : List Char) : Option SearchResult :=
  st.keywordTable.findSome? (fun p => checkKeyword q p.1 p.2)

/-- `item['answer'][:100]`, the deduplication key. -/
def answerKey (it : KnowledgeItem) : List Char := it.answer.take 100

/-- The candidate loop of `_neural_search`.  `remaining = top_k − |results|`;
after an emission the loop stops when `len(results) >= top_k`.  FAISS indices
are modelled as `Nat`; an out-of-range index denotes the empty phrase, which
is never emitted (its overlap is below 0.3). -/
def neuralLoop (st : SearcherState) (q : List Char) (th : ℚ) :
    List (ℚ × Nat) → List (List Char) → Nat → List SearchResult
  | [], _, _ => []
  | (raw, idx) :: rest, seen, remaining =>
    if raw < th then neuralLoop st q th rest seen remaining
    else
      let matched := (allQuestions st).getD idx []
      let item := questionToAnswer st matched
      let ov := calculate_word_overlap q matched
      if ov < 3/10 then neuralLoop st q th rest seen remaining
      else
        let adj := raw * (6/10) + ov * (4/10)
        if adj < th then neuralLoop st q th rest seen remaining
        else if answerKey item ∈ seen then neuralLoop st q th rest seen remaining
        else
          ⟨item.question, item.answer, adj, .neural, some raw, some matched, some ov⟩ ::
            (if remaining ≤ 1 then []
             else neuralLoop st q th rest (answerKey item :: seen) (remaining - 1))

/-- Stable descending insertion: a new result goes before the first strictly
smaller score (Python `list.sort(key=score, reverse=True)` is stable). -/
def insertDesc (r : SearchResult) : List SearchResult → List SearchResult
  | [] => [r]
  | x :: xs => if x.score < r.score then r :: x :: xs else x :: insertDesc r xs

/-- Stable sort by descending score. -/
def sortDesc (l : List SearchResult) : List SearchResult :=
  l.foldl (fun acc r => insertDesc r acc) []

/-- `NeuralSearcher._neural_search` given the `(similarity, index)` pairs the
external embedder + FAISS call returned for this query. -/
def neural_search (st : SearcherState) (q : List Char) (cands : List (ℚ × Nat))
    (top_k : Nat) (th : ℚ) : List SearchResult :=
  sortDesc (neuralLoop st q th cands [] top_k)

/-- The candidate loop of `_fuzzy_search` given the scored fmatches returned by
`rapidfuzz.process.extract`. -/
def fuzzyLoop (st : SearcherState) (q : List Char) :
    List (List Char × ℚ) → List (List Char) → Nat → List SearchResult
  | [], _, _ => []
  | (text, m) :: rest, seen, remaining =>
    if m < 70 then fuzzyLoop st q rest seen remaining
    else
      let ov := calculate_word_overlap q text
      if ov < 3/10 then fuzzyLoop st q rest seen remaining
      else
        let item := questionToAnswer st text
        if answerKey item ∈ seen then fuzzyLoop st q rest seen remaining
        else
          ⟨item.question, item.answer, m / 100, .fuzzy, none, some text, some ov⟩ ::
            (if remaining ≤ 1 then []
             else fuzzyLoop st q rest (answerKey item :: seen) (remaining - 1))

/-- `NeuralSearcher._fuzzy_search` (no sort: it relies on `process.extract`
returning fmatches in descending score order). -/
def fuzzy_search (st : SearcherState) (q : List Char)
    (fmatches : List (List Char × ℚ)) (top_k : Nat) : List SearchResult :=
  fuzzyLoop st q fmatches [] top_k

/-- `NeuralSearcher.search`, parameterized by the gate used at stage 2 (the
real gate and the C10-amended gate share everything else).  `embed` is the
outcome of the external `model.encode` + `index.search` call: `.error` when
the embedder fails (the Python exception), `.ok cands` otherwise.  `fmatches`
is the `process.extract` output used by the fuzzy stage. -/
def searchWith (gate : SearcherState → List Char → Bool) (kb : List KnowledgeItem)
    (embed : Except Unit (List (ℚ × Nat))) (fmatches : List (List Char × ℚ))
    (query : List Char) (top_k : Nat) (th : ℚ) : Except Unit (List SearchResult) :=
  let st := buildState kb
  if query = [] ∨ st.phrases = [] then .ok []
  else
    let cq := clean_text query
    if cq.length < 2 then .ok []
    else
      match check_keywords st cq with
      | some r => .ok [r]
      | none =>
        let sig := get_significant_words query
        let rel := gate st query
        if sig = [] ∧ rel = false then .ok []
        else if rel = false then .ok []
        else
          match embed with
          | .error e => .error e
          | .ok cands =>
            let nr := neural_search st cq cands top_k th
            if nr = [] then .ok (fuzzy_search st cq fmatches top_k) else .ok nr

/-- `NeuralSearcher.search` with the real gate. -/
def search (kb : List KnowledgeItem) (embed : Except Unit (List (ℚ × Nat)))
    (fmatches : List (List Char × ℚ)) (query : List Char) (top_k : Nat) (th : ℚ) :
    Except Unit (List SearchResult) :=
  searchWith has_relevant_words kb embed fmatches query top_k th

/-- `search` with the gate's keyword-table fallback branch removed (C10). -/
def searchNoFallback (kb : List KnowledgeItem) (embed : Except Unit (List (ℚ × Nat)))
    (fmatches : List (List Char × ℚ)) (query : List Char) (top_k : Nat) (th : ℚ) :
    Except Unit (List SearchResult) :=
  searchWith hasRelevantNoFallback kb embed fmatches query top_k th

/-- A character a normalized string may contain: a word character fixed by
lower-casing, or a single space. -/
def okChar (c : Char) : Prop := (pyWordChar c = true ∧ pyToLower c = c) ∨ c = ' '

/-- Adjacent characters are not both spaces. -/
def noAdj (a b : Char) : Prop := ¬(a = ' ' ∧ b = ' ')

/-- Characterization of `clean_text` outputs: lower-case word characters and
single separating spaces, with no space at either end. -/
def IsClean (s : List Char) : Prop :=
  (∀ c ∈ s, okChar c) ∧ s.Chain' noAdj ∧ s.head? ≠ some ' ' ∧ s.getLast? ≠ some ' '

/-- §4.5 as amended for C2: a candidate is emitted iff its raw similarity is
at least `threshold`, its lexical overlap is at least 0.3, its fused score is
at least `threshold`, and its item's answer prefix was not already emitted;
the loop stops once `top_k` results are accumulated. -/
def neuralEmitSpec (st : SearcherState) (q : List Char) (th : ℚ) (top_k : Nat) :
    List (ℚ × Nat) → List SearchResult → List SearchResult
  | [], acc => acc
  | (raw, idx) :: rest, acc =>
    let matched := (allQuestions st).getD idx []
    let item := questionToAnswer st matched
    let ov := calculate_word_overlap q matched
    let adj := raw * (6/10) + ov * (4/10)
    if th ≤ raw ∧ 3/10 ≤ ov ∧ th ≤ adj ∧
        answerKey item ∉ acc.map (fun r => r.answer.take 100) then
      let acc' := acc ++ [⟨item.question, item.answer, adj, .neural, some raw, some matched, some ov⟩]
      if top_k ≤ acc'.length then acc' else neuralEmitSpec st q th top_k rest acc'
    else neuralEmitSpec st q th top_k rest acc

/-- The vector-similarity stage as §4.5 describes it, amended per C2. -/
def neuralSpecSearch (st : SearcherState) (q : List Char) (cands : List (ℚ × Nat))
    (top_k : Nat) (th : ℚ) : List SearchResult :=
  sortDesc (neuralEmitSpec st q th top_k cands [])

/-! Concrete knowledge bases used by counterexamples and witnesses. -/

/-- Item owning keyword `abcdef`. -/
def itC1a : KnowledgeItem :=
  ⟨"first question".toList, [], ["abcdef".toList], "answer one".toList, []⟩

/-- Item owning keyword `abcdefg`. -/
def itC1b : KnowledgeItem :=
  ⟨"second question".toList, [], ["abcdefg".toList], "answer two".toList, []⟩

/-- Two items whose keywords collide under the fuzzy tier. -/
def kbC1 : List KnowledgeItem := [itC1a, itC1b]

/-- Single item with a three-token question and no keywords. -/
def itC2 : KnowledgeItem :=
  ⟨"alpha beta gamma".toList, [], [], "some answer".toList, []⟩

/-- Knowledge base for the C2 counterexample. -/
def kbC2 : List KnowledgeItem := [itC2]

/-- Single item whose question contains the token `stipend`. -/
def itC3 : KnowledgeItem :=
  ⟨"stipend payment info".toList, [], [], "stipend answer".toList, []⟩

/-- Knowledge base for the C3/C4 counterexamples. -/
def kbC3 : List KnowledgeItem := [itC3]

/-- One item carrying a stop-word keyword and a two-token keyword. -/
def kbC5 : List KnowledgeItem := [⟨[], [], ["как".toList, "ab cd".toList], [], []⟩]

/-! ## Lemmas about the normalizer -/

theorem lookup_mem {l : List (Char × Char)} {k v : Char} (h : l.lookup k = some v) :
    (k, v) ∈ l := by
  induction l with
  | nil => simp [List.lookup] at h
  | cons p rest ih =>
    obtain ⟨a, b⟩ := p
    rw [List.lookup] at h
    by_cases hk : k = a
    · subst hk
      simp at h
      simp [h]
    · simp [beq_false_of_ne hk] at h
      exact List.mem_cons_of_mem _ (ih h)

theorem lowerPairs_vals : ∀ p ∈ lowerPairs, lowerPairs.lookup p.2 = none := by decide

theorem pyToLower_idem (c : Char) : pyToLower (pyToLower c) = pyToLower c := by
  cases h : lowerPairs.lookup c with
  | none =>
    have hc : pyToLower c = c := by unfold pyToLower; rw [h]; rfl
    rw [hc]; exact hc
  | some l =>
    have hc : pyToLower c = l := by unfold pyToLower; rw [h]; rfl
    have hv := lowerPairs_vals _ (lookup_mem h)
    have hl : pyToLower l = l := by unfold pyToLower; rw [hv]; rfl
    rw [hc, hl]

theorem space_not_word {c : Char} (h : pySpaceChar c = true) : pyWordChar c = false := by
  simp only [pySpaceChar, Bool.or_eq_true, beq_iff_eq] at h
  rcases h with ((((h | h) | h) | h) | h) | h <;> subst h <;> decide

theorem word_not_space {c : Char} (h : pyWordChar c = true) : pySpaceChar c = false := by
  cases hs : pySpaceChar c
  · rfl
  · rw [space_not_word hs] at h
    exact absurd h (by simp)

theorem head_dropWhile {p : Char → Bool} :
    ∀ {l : List Char} {c : Char}, ((l.dropWhile p).head? = some c) → p c = false := by
  intro l
  induction l with
  | nil => intro c h; simp [List.dropWhile] at h
  | cons a rest ih =>
    intro c h
    rw [List.dropWhile] at h
    by_cases ha : p a
    · simp [ha] at h
      exact ih h
    · simp [ha] at h
      subst h
      simpa using ha

theorem mapped_chars (s : List Char) :
    ∀ c ∈ (s.map pyToLower).map (fun c => if keepChar c then c else ' '),
      (pyWordChar c = true ∧ pyToLower c = c) ∨ pySpaceChar c = true := by
  intro c hc
  simp only [List.map_map, List.mem_map, Function.comp] at hc
  obtain ⟨a, _, rfl⟩ := hc
  by_cases hk : keepChar (pyToLower a)
  · rw [if_pos hk]
    rcases Bool.or_eq_true _ _ |>.mp hk with hw | hs
    · exact Or.inl ⟨hw, pyToLower_idem a⟩
    · exact Or.inr hs
  · rw [if_neg hk]
    exact Or.inr (by decide)

theorem collapse_head_cons {d : Char} {t : List Char} (hd : pySpaceChar d = false) :
    (collapseSpaces (d :: t)).head? = some d := by
  cases t <;> simp [collapseSpaces, hd]

theorem collapse_ok : ∀ (l : List Char),
    (∀ c ∈ l, (pyWordChar c = true ∧ pyToLower c = c) ∨ pySpaceChar c = true) →
    (∀ c ∈ collapseSpaces l, okChar c) ∧ (collapseSpaces l).Chain' noAdj := by
  intro l
  induction l with
  | nil => simp [collapseSpaces]
  | cons a rest ih =>
    intro hchars
    have haw : pySpaceChar a = false → pyWordChar a = true ∧ pyToLower a = a := by
      intro hns
      rcases hchars a (List.mem_cons_self _ _) with h | h
      · exact h
      · rw [h] at hns
        exact absurd hns (by simp)
    cases rest with
    | nil =>
      by_cases hs : pySpaceChar a
      · simp only [collapseSpaces, hs, if_true]
        exact ⟨fun c hc => by rcases List.mem_singleton.mp hc with rfl; exact Or.inr rfl,
          List.chain'_singleton _⟩
      · simp only [collapseSpaces, hs, Bool.false_eq_true, if_false]
        exact ⟨fun c hc => by rcases List.mem_singleton.mp hc with rfl; exact Or.inl (haw (by simpa using hs)),
          List.chain'_singleton _⟩
    | cons d t =>
      have ihr := ih (fun c hc => hchars c (List.mem_cons_of_mem _ hc))
      by_cases hs : pySpaceChar a
      · by_cases hd : pySpaceChar d
        · simp only [collapseSpaces, hs, if_true, hd]
          exact ihr
        · simp only [collapseSpaces, hs, if_true, hd, Bool.false_eq_true, if_false]
          refine ⟨?_, ?_⟩
          · intro c hc
            rcases List.mem_cons.mp hc with rfl | hc
            · exact Or.inr rfl
            · exact ihr.1 c hc
          · rw [List.chain'_cons']
            refine ⟨?_, ihr.2⟩
            intro b hb
            rw [collapse_head_cons (by simpa using hd)] at hb
            intro ⟨_, hb'⟩
            have hbd : b = d := by symm; simpa using hb
            rw [hbd] at hb'
            rw [hb'] at hd
            exact hd (by decide)
      · simp only [collapseSpaces, hs, Bool.false_eq_true, if_false]
        refine ⟨?_, ?_⟩
        · intro c hc
          rcases List.mem_cons.mp hc with rfl | hc
          · exact Or.inl (haw (by simpa using hs))
          · exact ihr.1 c hc
        · rw [List.chain'_cons']
          refine ⟨?_, ihr.2⟩
          intro b _
          intro ⟨hc', _⟩
          rw [hc'] at hs
          exact hs (by decide)

theorem strip_subset {l : List Char} : stripWs l ⊆ l := by
  intro c hc
  unfold stripWs at hc
  rw [List.mem_reverse] at hc
  have h1 := (List.dropWhile_sublist pySpaceChar).subset hc
  rw [List.mem_reverse] at h1
  exact (List.dropWhile_sublist pySpaceChar).subset h1

theorem noAdj_flip {a b : Char} (h : noAdj a b) : noAdj b a := by
  unfold noAdj at *
  tauto

theorem strip_chain {l : List Char} (h : l.Chain' noAdj) : (stripWs l).Chain' noAdj := by
  unfold stripWs
  have h1 : (l.dropWhile pySpaceChar).Chain' noAdj :=
    h.suffix (List.dropWhile_suffix _)
  have h2 : ((l.dropWhile pySpaceChar).reverse).Chain' noAdj := by
    rw [List.chain'_reverse]
    exact h1.imp (fun _ _ hab => noAdj_flip hab)
  have h3 : (((l.dropWhile pySpaceChar).reverse).dropWhile pySpaceChar).Chain' noAdj :=
    h2.suffix (List.dropWhile_suffix _)
  rw [List.chain'_reverse]
  exact h3.imp (fun _ _ hab => noAdj_flip hab)

theorem head_of_isPrefix {s t : List Char} (h : s <+: t) (hne : s ≠ []) :
    s.head? = t.head? := by
  obtain ⟨r, rfl⟩ := h
  cases s with
  | nil => exact absurd rfl hne
  | cons a u => simp

theorem strip_head {l : List Char} :
    ∀ c, (stripWs l).head? = some c → pySpaceChar c = false := by
  intro c hc
  have hne : stripWs l ≠ [] := by
    intro h
    rw [h] at hc
    simp at hc
  have hpre : stripWs l <+: l.dropWhile pySpaceChar := by
    unfold stripWs
    have hsuf : ((l.dropWhile pySpaceChar).reverse).dropWhile pySpaceChar <:+
        (l.dropWhile pySpaceChar).reverse := List.dropWhile_suffix _
    obtain ⟨r, hr⟩ := hsuf
    refine ⟨r.reverse, ?_⟩
    have := congrArg List.reverse hr
    simpa [List.reverse_append] using this
  rw [head_of_isPrefix hpre hne] at hc
  exact head_dropWhile hc

theorem strip_last {l : List Char} :
    ∀ c, (stripWs l).getLast? = some c → pySpaceChar c = false := by
  intro c hc
  unfold stripWs at hc
  rw [List.getLast?_reverse] at hc
  exact head_dropWhile hc

theorem clean_text_isClean (s : List Char) : IsClean (clean_text s) := by
  unfold clean_text normalizeWith
  by_cases hs : s = []
  · rw [if_pos hs]
    exact ⟨by simp, by simp, by simp, by simp⟩
  · rw [if_neg hs]
    obtain ⟨hok, hchain⟩ :=
      collapse_ok ((s.map pyToLower).map (fun c => if keepChar c then c else ' '))
        (mapped_chars s)
    refine ⟨?_, strip_chain hchain, ?_, ?_⟩
    · intro c hc
      exact hok c (strip_subset hc)
    · intro hh
      have := strip_head ' ' hh
      exact absurd this (by decide)
    · intro hh
      have := strip_last ' ' hh
      exact absurd this (by decide)

theorem map_id_of_fixed {f : Char → Char} :
    ∀ {l : List Char}, (∀ c ∈ l, f c = c) → l.map f = l := by
  intro l
  induction l with
  | nil => intro; rfl
  | cons a rest ih =>
    intro h
    rw [List.map_cons, h a (List.mem_cons_self _ _), ih (fun c hc => h c (List.mem_cons_of_mem _ hc))]

theorem collapse_fixed : ∀ {l : List Char},
    (∀ c ∈ l, okChar c) → l.Chain' noAdj → collapseSpaces l = l := by
  intro l
  induction l with
  | nil => intro _ _; rfl
  | cons a rest ih =>
    intro h1 h2
    cases rest with
    | nil =>
      rcases h1 a (List.mem_cons_self _ _) with ⟨hw, _⟩ | hsp
      · simp [collapseSpaces, word_not_space hw]
      · subst hsp
        simp [collapseSpaces]
    | cons d t =>
      have ihr := ih (fun c hc => h1 c (List.mem_cons_of_mem _ hc)) h2.tail
      rcases h1 a (List.mem_cons_self _ _) with ⟨hw, _⟩ | hsp
      · have hns := word_not_space hw
        simp only [collapseSpaces, hns, Bool.false_eq_true, if_false]
        rw [ihr]
      · subst hsp
        have hdne : d ≠ ' ' := by
          have := (List.chain'_cons.mp h2).1
          unfold noAdj at this
          intro hd'
          exact this ⟨rfl, hd'⟩
        have hdns : pySpaceChar d = false := by
          rcases h1 d (by simp) with ⟨hw', _⟩ | h'
          · exact word_not_space hw'
          · exact absurd h' hdne
        simp only [collapseSpaces, if_pos (by decide : pySpaceChar ' ' = true), hdns,
          Bool.false_eq_true, if_false]
        rw [ihr]

theorem strip_fixed : ∀ {l : List Char}, l.head? ≠ some ' ' → l.getLast? ≠ some ' ' →
    (∀ c ∈ l, okChar c) → stripWs l = l := by
  intro l hh hl hok
  unfold stripWs
  have h1 : l.dropWhile pySpaceChar = l := by
    cases l with
    | nil => rfl
    | cons c rest =>
      have hcs : pySpaceChar c = false := by
        rcases hok c (List.mem_cons_self _ _) with ⟨hw, _⟩ | h'
        · exact word_not_space hw
        · subst h'
          exact absurd rfl hh
      simp [List.dropWhile_cons, hcs]
  rw [h1]
  have h2 : l.reverse.dropWhile pySpaceChar = l.reverse := by
    cases hr : l.reverse with
    | nil => rfl
    | cons c rest =>
      have hmem : c ∈ l := by
        rw [← List.mem_reverse, hr]
        simp
      have hlast : l.getLast? = some c := by
        rw [← List.head?_reverse, hr]
        rfl
      have hcs : pySpaceChar c = false := by
        rcases hok c hmem with ⟨hw, _⟩ | h'
        · exact word_not_space hw
        · subst h'
          exact absurd hlast hl
      simp [List.dropWhile_cons, hcs]
  rw [h2, List.reverse_reverse]

theorem isClean_fixed : ∀ {t : List Char}, IsClean t → clean_text t = t := by
  intro t h
  obtain ⟨hok, hchain, hh, hl⟩ := h
  unfold clean_text normalizeWith
  by_cases ht : t = []
  · rw [if_pos ht, ht]
  · rw [if_neg ht]
    have hm1 : t.map pyToLower = t := map_id_of_fixed (fun c hc => by
      rcases hok c hc with ⟨_, hf⟩ | h'
      · exact hf
      · subst h'
        decide)
    rw [hm1]
    have hm2 : t.map (fun c => if keepChar c then c else ' ') = t :=
      map_id_of_fixed (fun c hc => by
        rcases hok c hc with ⟨hw, _⟩ | h'
        · simp [keepChar, hw]
        · subst h'
          decide)
    rw [hm2, collapse_fixed hok hchain, strip_fixed hh hl hok]

theorem keep_eq_amended : ∀ c, keepChar c = specKeepAmended c := by
  intro c
  simp only [keepChar, pyWordChar, specKeepAmended, specLetter, Char.isAlphanum]
  cases c.isAlpha <;> cases c.isDigit <;> cases h1 : (c == '_') <;>
    cases h2 : (decide ('А' ≤ c) && decide (c ≤ 'я')) <;> cases h3 : (c == 'ё') <;>
    cases h4 : (c == 'Ё') <;> cases h5 : pySpaceChar c <;> rfl

/-- C6 counterexample: `clean_text` keeps the underscore (Python `\w`), while
the normalizer described by the spec sentence — replace every character that
is not a letter, digit, or whitespace — maps it to a space. -/
theorem c6_counterexample :
    clean_text "a_b".toList ≠ specNormClaim "a_b".toList ∧
    clean_text "a_b".toList = "a_b".toList ∧
    specNormClaim "a_b".toList = "a b".toList := by
  refine ⟨?_, by decide, by decide⟩
  decide

/-- C6 (amended): for every string, `clean_text` lower-cases it, replaces
every character that is not a letter, digit, underscore, or whitespace with a
single space, collapses whitespace runs to one space and trims both ends;
empty input yields the empty string.  (The amendment is the underscore, which
Python's `\w` class keeps.) -/
theorem c6_normalizer_amended (s : List Char) : clean_text s = specNormAmended s := by
  unfold clean_text specNormAmended
  rw [funext keep_eq_amended]

/-- C7: the normalizer is idempotent: cleaning an already cleaned string
changes nothing. -/
theorem c7_normalizer_idem (s : List Char) : clean_text (clean_text s) = clean_text s :=
  isClean_fixed (clean_text_isClean s)

/-! ## Lemmas about the vocabulary build (C5) -/

theorem mem_addWord {s : List (List Char)} {w w' : List Char}
    (h : w' ∈ addWord s w) : w' = w ∨ w' ∈ s := by
  unfold addWord at h
  by_cases hw : w ∈ s
  · rw [if_pos hw] at h
    exact Or.inr h
  · rw [if_neg hw] at h
    exact List.mem_cons.mp h

theorem foldl_mem_or {β : Type} {f : List (List Char) → β → List (List Char)}
    {Q : List Char → β → Prop}
    (hf : ∀ s x w, w ∈ f s x → Q w x ∨ w ∈ s) :
    ∀ (l : List β) (s : List (List Char)) (w : List Char),
      w ∈ l.foldl f s → (∃ x ∈ l, Q w x) ∨ w ∈ s := by
  intro l
  induction l with
  | nil => intro s w h; exact Or.inr h
  | cons x rest ih =>
    intro s w h
    rw [List.foldl_cons] at h
    rcases ih _ w h with ⟨y, hy, hq⟩ | h2
    · exact Or.inl ⟨y, List.mem_cons_of_mem _ hy, hq⟩
    · rcases hf s x w h2 with hq | h3
      · exact Or.inl ⟨x, List.mem_cons_self _ _, hq⟩
      · exact Or.inr h3

theorem mem_addKw {s : List (List Char)} {kw w : List Char} (h : w ∈ addKw s kw) :
    (w = clean_text kw ∧ 2 < w.length) ∨ w ∈ s := by
  unfold addKw at h
  by_cases hl : 2 < (clean_text kw).length
  · rw [if_pos hl] at h
    rcases mem_addWord h with rfl | h2
    · exact Or.inl ⟨rfl, hl⟩
    · exact Or.inr h2
  · rw [if_neg hl] at h
    exact Or.inr h

theorem mem_addTok {s : List (List Char)} {t w : List Char} (h : w ∈ addTok s t) :
    (w = t ∧ w ∉ STOP_WORDS ∧ 3 < w.length) ∨ w ∈ s := by
  unfold addTok at h
  by_cases hl : t ∉ STOP_WORDS ∧ 3 < t.length
  · rw [if_pos hl] at h
    rcases mem_addWord h with rfl | h2
    · exact Or.inl ⟨rfl, hl⟩
    · exact Or.inr h2
  · rw [if_neg hl] at h
    exact Or.inr h

theorem mem_itemWords {s : List (List Char)} {it : KnowledgeItem} {w : List Char}
    (h : w ∈ itemWords s it) :
    (∃ kw ∈ it.keywords, w = clean_text kw ∧ 2 < w.length) ∨
    (((∃ v ∈ it.variations, w ∈ splitWords (clean_text v)) ∨
       w ∈ splitWords (clean_text it.question)) ∧ w ∉ STOP_WORDS ∧ 3 < w.length) ∨
    w ∈ s := by
  unfold itemWords at h
  rcases foldl_mem_or (Q := fun w t => w = t ∧ w ∉ STOP_WORDS ∧ 3 < w.length)
      (fun s x w hx => mem_addTok hx) _ _ _ h with ⟨t, ht, rfl, hst, hlen⟩ | h2
  · exact Or.inr (Or.inl ⟨Or.inr ht, hst, hlen⟩)
  · rcases foldl_mem_or (Q := fun w v => w ∈ splitWords (clean_text v) ∧ w ∉ STOP_WORDS ∧ 3 < w.length)
      (fun s v w hx => by
        rcases foldl_mem_or (Q := fun w t => w = t ∧ w ∉ STOP_WORDS ∧ 3 < w.length)
            (fun s x w hx => mem_addTok hx) _ _ _ hx with ⟨t, ht, rfl, hst, hlen⟩ | h3
        · exact Or.inl ⟨ht, hst, hlen⟩
        · exact Or.inr h3) _ _ _ h2 with ⟨v, hv, hw⟩ | h3
    · exact Or.inr (Or.inl ⟨Or.inl ⟨v, hv, hw.1⟩, hw.2⟩)
    · rcases foldl_mem_or (Q := fun w kw => w = clean_text kw ∧ 2 < w.length)
          (fun s x w hx => mem_addKw hx) _ _ _ h3 with ⟨kw, hkw, hw⟩ | h4
      · exact Or.inl ⟨kw, hkw, hw⟩
      · exact Or.inr (Or.inr h4)

/-- C5 counterexample: on a knowledge base whose item has the keywords `как`
(a stop-word) and `ab cd` (two tokens), the built vocabulary contains a
stop-word member and a member holding a space — so not every member is a
single non-stop-word token. -/
theorem c5_counterexample :
    ¬ (∀ w ∈ build_significant_words kbC5, w ∉ STOP_WORDS ∧ ' ' ∉ w) := by
  decide

/-- C5 (amended): after index construction, every member of the vocabulary
has length > 2 and is either the whole cleaned form of some item's keyword
(of length > 2, with no stop-word filter and no tokenization), or a single
token of some item's cleaned question or variation that is not a stop-word
and has length > 3. -/
theorem c5_vocab_amended (kb : List KnowledgeItem) (w : List Char)
    (hw : w ∈ build_significant_words kb) :
    2 < w.length ∧ ∃ it ∈ kb,
      (∃ kw ∈ it.keywords, w = clean_text kw) ∨
      (((∃ v ∈ it.variations, w ∈ splitWords (clean_text v)) ∨
         w ∈ splitWords (clean_text it.question)) ∧ w ∉ STOP_WORDS ∧ 3 < w.length) := by
  unfold build_significant_words at hw
  rcases foldl_mem_or
      (Q := fun w it =>
        (∃ kw ∈ it.keywords, w = clean_text kw ∧ 2 < w.length) ∨
        (((∃ v ∈ it.variations, w ∈ splitWords (clean_text v)) ∨
           w ∈ splitWords (clean_text it.question)) ∧ w ∉ STOP_WORDS ∧ 3 < w.length))
      (fun s it w hx => by
        rcases mem_itemWords hx with h | h | h
        · exact Or.inl (Or.inl h)
        · exact Or.inl (Or.inr h)
        · exact Or.inr h) _ _ _ hw with ⟨it, hit, hq⟩ | h2
  · rcases hq with ⟨kw, hkw, rfl, hlen⟩ | ⟨hsrc, hst, hlen⟩
    · exact ⟨hlen, it, hit, Or.inl ⟨kw, hkw, rfl⟩⟩
    · exact ⟨by omega, it, hit, Or.inr ⟨hsrc, hst, hlen⟩⟩
  · exact absurd h2 (List.not_mem_nil w)

/-- Witness for C5: instantiation at the concrete base `kbC5` and the member
`ab cd`. -/
theorem c5_witness :
    2 < ("ab cd".toList).length ∧ ∃ it ∈ kbC5,
      (∃ kw ∈ it.keywords, "ab cd".toList = clean_text kw) ∨
      (((∃ v ∈ it.variations, "ab cd".toList ∈ splitWords (clean_text v)) ∨
         "ab cd".toList ∈ splitWords (clean_text it.question)) ∧
        "ab cd".toList ∉ STOP_WORDS ∧ 3 < ("ab cd".toList).length) :=
  c5_vocab_amended kbC5 "ab cd".toList (by decide)

/-! ## Lemmas about the keyword matcher (C1, C10) -/

theorem checkKeyword_self (k : List Char) (it : KnowledgeItem) :
    checkKeyword k k it = some ⟨it.question, it.answer, 1, .keyword_exact, none, none, none⟩ := by
  simp [checkKeyword]

theorem findSome_skip {f : (List Char × KnowledgeItem) → Option SearchResult} :
    ∀ {pre rest : List (List Char × KnowledgeItem)}, (∀ p ∈ pre, f p = none) →
      (pre ++ rest).findSome? f = rest.findSome? f := by
  intro pre
  induction pre with
  | nil => intro rest _; rfl
  | cons p ps ih =>
    intro rest h
    rw [List.cons_append, List.findSome?_cons, h p (List.mem_cons_self _ _)]
    exact ih (fun x hx => h x (List.mem_cons_of_mem _ hx))

theorem exists_of_findSome {f : (List Char × KnowledgeItem) → Option SearchResult} :
    ∀ {l : List (List Char × KnowledgeItem)} {r}, l.findSome? f = some r →
      ∃ p ∈ l, f p = some r := by
  intro l
  induction l with
  | nil =>
    intro r h
    rw [List.findSome?_nil] at h
    exact Option.noConfusion h
  | cons p ps ih =>
    intro r h
    rw [List.findSome?_cons] at h
    cases hp : f p with
    | some r' =>
      simp only [hp] at h
      exact ⟨p, List.mem_cons_self _ _, by rw [hp, h]⟩
    | none =>
      simp only [hp] at h
      obtain ⟨x, hx, hfx⟩ := ih h
      exact ⟨x, List.mem_cons_of_mem _ hx, hfx⟩

theorem findSome_of_mem_key {k : List Char} {it : KnowledgeItem} :
    ∀ (l : List (List Char × KnowledgeItem)), (k, it) ∈ l →
      ∃ r, l.findSome? (fun p => checkKeyword k p.1 p.2) = some r := by
  intro l
  induction l with
  | nil => intro h; exact absurd h (List.not_mem_nil _)
  | cons p ps ih =>
    intro h
    cases hc : checkKeyword k p.1 p.2 with
    | some r => exact ⟨r, by rw [List.findSome?_cons, hc]⟩
    | none =>
      have hmem : (k, it) ∈ ps := by
        rcases List.mem_cons.mp h with h1 | h1
        · exfalso
          rw [← h1] at hc
          rw [checkKeyword_self] at hc
          exact Option.noConfusion hc
        · exact h1
      obtain ⟨r, hr⟩ := ih hmem
      exact ⟨r, by rw [List.findSome?_cons, hc, hr]⟩

theorem check_keywords_of_mem {st : SearcherState} {k : List Char} {it : KnowledgeItem}
    (h : (k, it) ∈ st.keywordTable) : ∃ r, check_keywords st k = some r :=
  findSome_of_mem_key st.keywordTable h

theorem clean_text_of_nil : clean_text [] = [] := rfl

/-- C1 counterexample: `abcdefg` is itself a registered keyword (of item
`itC1b`), yet search returns the `keyword_fuzzy` result of the earlier
keyword `abcdef` with score 0.98 — exact equality does not take priority
across the whole table, only within one keyword's checks. -/
theorem c1_counterexample :
    ("abcdefg".toList, itC1b) ∈ (buildState kbC1).keywordTable ∧
    clean_text "abcdefg".toList = "abcdefg".toList ∧
    search kbC1 (.ok []) [] "abcdefg".toList 5 (11/20) =
      .ok [⟨"first question".toList, "answer one".toList, 49/50,
            .keyword_fuzzy, none, none, none⟩] :=
  ⟨by decide, by decide, by with_unfolding_all decide⟩

/-- C1 (amended): if the normalized query equals a registered keyword and no
keyword placed earlier in table iteration order fires any of the four
per-keyword checks, then search returns the single-element list with score
exactly 1.0 and `keyword_exact`, regardless of `top_k` (and of the embedder,
the fuzzy matches, and the threshold). -/
theorem c1_keyword_first_amended (kb : List KnowledgeItem)
    (embed : Except Unit (List (ℚ × Nat))) (fm : List (List Char × ℚ))
    (query : List Char) (topk : Nat) (th : ℚ)
    (pre post : List (List Char × KnowledgeItem)) (it : KnowledgeItem)
    (hph : (buildState kb).phrases ≠ [])
    (hlen : 2 ≤ (clean_text query).length)
    (htbl : (buildState kb).keywordTable = pre ++ (clean_text query, it) :: post)
    (hpre : ∀ p ∈ pre, checkKeyword (clean_text query) p.1 p.2 = none) :
    search kb embed fm query topk th =
      .ok [⟨it.question, it.answer, 1, .keyword_exact, none, none, none⟩] := by
  have hq : query ≠ [] := by
    intro h
    rw [h, clean_text_of_nil] at hlen
    simp at hlen
  have hkw : check_keywords (buildState kb) (clean_text query) =
      some ⟨it.question, it.answer, 1, .keyword_exact, none, none, none⟩ := by
    unfold check_keywords
    rw [htbl, findSome_skip hpre, List.findSome?_cons, checkKeyword_self]
  unfold search searchWith
  rw [if_neg (by simp [hq, hph]), if_neg (by omega)]
  simp only [hkw]

/-- Witness for C1 (amended): the query `abcdef` on `kbC1` (its keyword sits
first in the table). -/
theorem c1_witness :
    search kbC1 (.ok []) [] "abcdef".toList 3 (11/20) =
      .ok [⟨itC1a.question, itC1a.answer, 1, .keyword_exact, none, none, none⟩] :=
  c1_keyword_first_amended kbC1 (.ok []) [] "abcdef".toList 3 (11/20)
    [] [("abcdefg".toList, itC1b)] itC1a (by decide) (by decide) (by decide) (by simp)

/-! ## Search-stage plumbing lemmas -/

theorem search_keyword_stage {kb : List KnowledgeItem} {embed : Except Unit (List (ℚ × Nat))}
    {fm : List (List Char × ℚ)} {query : List Char} {topk : Nat} {th : ℚ} {r : SearchResult}
    (hq : query ≠ []) (hph : (buildState kb).phrases ≠ [])
    (hlen : 2 ≤ (clean_text query).length)
    (hr : check_keywords (buildState kb) (clean_text query) = some r) :
    search kb embed fm query topk th = .ok [r] := by
  unfold search searchWith
  rw [if_neg (by simp [hq, hph]), if_neg (by omega)]
  simp only [hr]

theorem search_gate_empty {kb : List KnowledgeItem} {embed : Except Unit (List (ℚ × Nat))}
    {fm : List (List Char × ℚ)} {query : List Char} {topk : Nat} {th : ℚ}
    (hq : query ≠ []) (hph : (buildState kb).phrases ≠ [])
    (hlen : 2 ≤ (clean_text query).length)
    (hkw : check_keywords (buildState kb) (clean_text query) = none)
    (hrel : has_relevant_words (buildState kb) query = false) :
    search kb embed fm query topk th = .ok [] := by
  unfold search searchWith
  rw [if_neg (by simp [hq, hph]), if_neg (by omega)]
  simp only [hkw, hrel]
  simp

theorem search_past_gate {kb : List KnowledgeItem} {embed : Except Unit (List (ℚ × Nat))}
    {fm : List (List Char × ℚ)} {query : List Char} {topk : Nat} {th : ℚ}
    (hq : query ≠ []) (hph : (buildState kb).phrases ≠ [])
    (hlen : 2 ≤ (clean_text query).length)
    (hkw : check_keywords (buildState kb) (clean_text query) = none)
    (hrel : has_relevant_words (buildState kb) query = true) :
    search kb embed fm query topk th =
      match embed with
      | .error e => .error e
      | .ok cands =>
        if neural_search (buildState kb) (clean_text query) cands topk th = [] then
          .ok (fuzzy_search (buildState kb) (clean_text query) fm topk)
        else .ok (neural_search (buildState kb) (clean_text query) cands topk th) := by
  unfold search searchWith
  rw [if_neg (by simp [hq, hph]), if_neg (by omega)]
  simp only [hkw, hrel]
  simp

/-! ## C10: a keyword-table key always resolves at the keyword stage -/

theorem gate_eq_of_no_kw {st : SearcherState} {query : List Char}
    (hkw : check_keywords st (clean_text query) = none) :
    has_relevant_words st query = hasRelevantNoFallback st query := by
  unfold has_relevant_words hasRelevantNoFallback
  by_cases hq : get_significant_words query = []
  · rw [if_pos hq, if_pos hq]
    rw [decide_eq_false_iff_not]
    intro hmem
    rw [List.mem_map] at hmem
    obtain ⟨p, hp, hfst⟩ := hmem
    obtain ⟨k, it⟩ := p
    simp only at hfst
    subst hfst
    obtain ⟨r, hr⟩ := check_keywords_of_mem hp
    rw [hr] at hkw
    exact Option.noConfusion hkw
  · rw [if_neg hq, if_neg hq]

/-- C10: when the fully normalized query is a key of the KeywordTable (and
the pre-checks pass), search returns a single-element result from the keyword
stage; and on every input, search is unchanged when the Relevance Gate's
keyword-table fallback branch is replaced by `false` — the branch can never
decide the outcome of a search call. -/
theorem c10_keyword_total :
    (∀ (kb : List KnowledgeItem) (embed : Except Unit (List (ℚ × Nat)))
        (fm : List (List Char × ℚ)) (query : List Char) (topk : Nat) (th : ℚ),
        (buildState kb).phrases ≠ [] → 2 ≤ (clean_text query).length →
        (∃ it, (clean_text query, it) ∈ (buildState kb).keywordTable) →
        ∃ r, search kb embed fm query topk th = .ok [r]) ∧
    (∀ (kb : List KnowledgeItem) (embed : Except Unit (List (ℚ × Nat)))
        (fm : List (List Char × ℚ)) (query : List Char) (topk : Nat) (th : ℚ),
        search kb embed fm query topk th = searchNoFallback kb embed fm query topk th) := by
  constructor
  · intro kb embed fm query topk th hph hlen hk
    obtain ⟨it, hmem⟩ := hk
    have hq : query ≠ [] := fun h => by rw [h, clean_text_of_nil] at hlen; simp at hlen
    obtain ⟨r, hr⟩ := check_keywords_of_mem hmem
    exact ⟨r, search_keyword_stage hq hph hlen hr⟩
  · intro kb embed fm query topk th
    unfold search searchNoFallback searchWith
    by_cases h0 : query = [] ∨ (buildState kb).phrases = []
    · rw [if_pos h0, if_pos h0]
    · rw [if_neg h0, if_neg h0]
      by_cases hlen : (clean_text query).length < 2
      · rw [if_pos hlen, if_pos hlen]
      · rw [if_neg hlen, if_neg hlen]
        cases hkw : check_keywords (buildState kb) (clean_text query) with
        | some r => simp only [hkw]
        | none =>
          simp only [hkw]
          rw [gate_eq_of_no_kw hkw]

/-- Witness for C10 at the concrete base `kbC1` and query `abcdef`. -/
theorem c10_witness :
    (∃ r, search kbC1 (.error ()) [] "abcdef".toList 4 (11/20) = .ok [r]) ∧
    search kbC1 (.error ()) [] "abcdef".toList 4 (11/20) =
      searchNoFallback kbC1 (.error ()) [] "abcdef".toList 4 (11/20) :=
  ⟨c10_keyword_total.1 kbC1 (.error ()) [] "abcdef".toList 4 (11/20)
      (by decide) (by decide) ⟨itC1a, by decide⟩,
    c10_keyword_total.2 kbC1 (.error ()) [] "abcdef".toList 4 (11/20)⟩

/-! ## C3: a failing embedder propagates -/

/-- C3 counterexample: on `kbC3` the query `stipend` passes the keyword and
gate stages; with a failing embedder, search returns the error — it does not
degrade to the fuzzy path, although the fuzzy matcher would have produced a
result on the same input. -/
theorem c3_counterexample :
    search kbC3 (.error ()) [("stipend payment info".toList, 95)]
        "stipend".toList 5 (11/20) = .error () ∧
    fuzzy_search (buildState kbC3) (clean_text "stipend".toList)
        [("stipend payment info".toList, 95)] 5 ≠ [] :=
  ⟨by with_unfolding_all decide, by with_unfolding_all decide⟩

/-- C3 (amended): when the embedder call fails during vector search, `search`
propagates the failure to its caller instead of degrading to the fuzzy
fallback; the keyword stage, which precedes the embedder call, is unaffected
by a broken embedder. -/
theorem c3_embedder_error_amended (kb : List KnowledgeItem)
    (fm : List (List Char × ℚ)) (query : List Char) (topk : Nat) (th : ℚ) (e : Unit)
    (hph : (buildState kb).phrases ≠ [])
    (hlen : 2 ≤ (clean_text query).length) :
    (∀ r, check_keywords (buildState kb) (clean_text query) = some r →
        search kb (.error e) fm query topk th = .ok [r]) ∧
    (check_keywords (buildState kb) (clean_text query) = none →
        has_relevant_words (buildState kb) query = true →
        search kb (.error e) fm query topk th = .error e) := by
  have hq : query ≠ [] := fun h => by rw [h, clean_text_of_nil] at hlen; simp at hlen
  constructor
  · intro r hr
    exact search_keyword_stage hq hph hlen hr
  · intro hkw hrel
    rw [search_past_gate hq hph hlen hkw hrel]

/-- Witness for C3 (amended) at `kbC3` and the queries `stipend` (gate
passes, error propagates) and `abcdef` elsewhere. -/
theorem c3_witness :
    search kbC3 (.error ()) [] "stipend".toList 7 (11/20) = .error () :=
  (c3_embedder_error_amended kbC3 [] "stipend".toList 7 (11/20) ()
      (by decide) (by decide)).2 (by with_unfolding_all decide) (by decide)

/-! ## C4: the gate alone decides emptiness before vector search -/

/-- C4 counterexample: the query `zzzzzz` has a significant word, the gate
reports no relevance, no keyword matches — and search returns the empty
sequence without attempting vector search (the embedder is the failing one,
and no error surfaces), contradicting the claim that vector search is
attempted whenever the query has significant words. -/
theorem c4_counterexample :
    get_significant_words "zzzzzz".toList ≠ [] ∧
    has_relevant_words (buildState kbC3) "zzzzzz".toList = false ∧
    check_keywords (buildState kbC3) (clean_text "zzzzzz".toList) = none ∧
    search kbC3 (.error ()) [] "zzzzzz".toList 5 (11/20) = .ok [] :=
  ⟨by decide, by decide, by with_unfolding_all decide, by with_unfolding_all decide⟩

/-- C4 (amended): given that the keyword matcher found no match (and the
pre-checks pass), search returns the empty sequence at the gating stage
exactly when the Relevance Gate reports no relevance — the additional
no-significant-words condition is redundant; vector search is attempted if
and only if the gate reports relevance (observed here through a failing
embedder, whose error surfaces exactly when the gate passes). -/
theorem c4_gate_amended (kb : List KnowledgeItem) (embed : Except Unit (List (ℚ × Nat)))
    (fm : List (List Char × ℚ)) (query : List Char) (topk : Nat) (th : ℚ)
    (hph : (buildState kb).phrases ≠ [])
    (hlen : 2 ≤ (clean_text query).length)
    (hkw : check_keywords (buildState kb) (clean_text query) = none) :
    (has_relevant_words (buildState kb) query = false →
        search kb embed fm query topk th = .ok []) ∧
    (has_relevant_words (buildState kb) query = true →
        search kb (.error ()) fm query topk th = .error ()) := by
  have hq : query ≠ [] := fun h => by rw [h, clean_text_of_nil] at hlen; simp at hlen
  constructor
  · intro hrel
    exact search_gate_empty hq hph hlen hkw hrel
  · intro hrel
    rw [search_past_gate hq hph hlen hkw hrel]

/-- Witness for C4 (amended) at `kbC3` and the query `zzzzzz`. -/
theorem c4_witness :
    search kbC3 (.ok [(1, 0)]) [] "zzzzzz".toList 2 (11/20) = .ok [] :=
  (c4_gate_amended kbC3 (.ok [(1, 0)]) [] "zzzzzz".toList 2 (11/20)
      (by decide) (by decide) (by with_unfolding_all decide)).1 (by decide)

/-! ## C2: emission discipline of the vector stage -/

theorem emitSpec_eq_loop (st : SearcherState) (q : List Char) (th : ℚ) (topk : Nat) :
    ∀ (cands : List (ℚ × Nat)) (acc : List SearchResult) (seen : List (List Char)),
      (∀ x, x ∈ seen ↔ x ∈ acc.map (fun r => r.answer.take 100)) →
      acc.length < topk →
      neuralEmitSpec st q th topk cands acc =
        acc ++ neuralLoop st q th cands seen (topk - acc.length) := by
  intro cands
  induction cands with
  | nil =>
    intro acc seen _ _
    simp [neuralEmitSpec, neuralLoop]
  | cons c rest ih =>
    obtain ⟨raw, idx⟩ := c
    intro acc seen hseen hlen
    simp only [neuralEmitSpec, neuralLoop]
    set M := (allQuestions st).getD idx [] with hM
    set IT := questionToAnswer st M with hIT
    set OV := calculate_word_overlap q M with hOV
    set ADJ := raw * (6/10) + OV * (4/10) with hADJ
    set KEY := answerKey IT with hKEY
    set RS := (⟨IT.question, IT.answer, ADJ, MatchType.neural, some raw, some M, some OV⟩ :
      SearchResult) with hRS
    by_cases h1 : raw < th
    · rw [if_neg (fun hcc => absurd hcc.1 (not_le.mpr h1)), if_pos h1]
      exact ih acc seen hseen hlen
    · by_cases h2 : OV < 3/10
      · rw [if_neg (fun hcc => absurd hcc.2.1 (not_le.mpr h2)), if_neg h1, if_pos h2]
        exact ih acc seen hseen hlen
      · by_cases h3 : ADJ < th
        · rw [if_neg (fun hcc => absurd hcc.2.2.1 (not_le.mpr h3)), if_neg h1, if_neg h2,
            if_pos h3]
          exact ih acc seen hseen hlen
        · by_cases h4 : KEY ∈ seen
          · rw [if_neg (fun hcc => absurd ((hseen KEY).mp h4) hcc.2.2.2), if_neg h1,
              if_neg h2, if_neg h3, if_pos h4]
            exact ih acc seen hseen hlen
          · have hcc : th ≤ raw ∧ 3/10 ≤ OV ∧ th ≤ ADJ ∧
                KEY ∉ acc.map (fun r => r.answer.take 100) :=
              ⟨not_lt.mp h1, not_lt.mp h2, not_lt.mp h3,
                fun hmem => h4 ((hseen KEY).mpr hmem)⟩
            rw [if_pos hcc, if_neg h1, if_neg h2, if_neg h3, if_neg h4]
            by_cases h5 : topk ≤ (acc ++ [RS]).length
            · rw [if_pos h5, if_pos (show topk - acc.length ≤ 1 by
                simp only [List.length_append, List.length_singleton] at h5; omega)]
            · rw [if_neg h5, if_neg (show ¬(topk - acc.length ≤ 1) by
                simp only [List.length_append, List.length_singleton] at h5; omega)]
              have hseen2 : ∀ x, x ∈ KEY :: seen ↔
                  x ∈ ((acc ++ [RS]).map (fun r => r.answer.take 100)) := by
                intro x
                rw [List.mem_cons, hseen x, List.map_append, List.mem_append]
                simp only [List.map_cons, List.map_nil, List.mem_singleton, hRS, hKEY,
                  answerKey]
                tauto
              have hlen2 : (acc ++ [RS]).length < topk := by
                simp only [List.length_append, List.length_singleton] at h5 ⊢
                omega
              rw [ih (acc ++ [RS]) (KEY :: seen) hseen2 hlen2]
              simp only [List.append_assoc, List.singleton_append, List.length_append,
                List.length_singleton, List.cons_append, List.nil_append]
              rw [Nat.sub_sub]

/-- C2 counterexample: a candidate with raw similarity 0.5 (below the 0.55
threshold) whose overlap is 1 and whose fused score 0.7 clears the threshold,
seen first with nothing yet emitted, is nevertheless discarded — the loop
also discards on raw similarity alone. -/
theorem c2_counterexample :
    neural_search (buildState kbC2) "alpha beta gamma".toList [(1/2, 0)] 5 (11/20) = [] ∧
    calculate_word_overlap "alpha beta gamma".toList
        ((allQuestions (buildState kbC2)).getD 0 []) = 1 ∧
    (3/10 : ℚ) ≤ 1 ∧ (11/20 : ℚ) ≤ (1/2) * (6/10) + 1 * (4/10) :=
  ⟨by with_unfolding_all decide, by with_unfolding_all decide, by norm_num, by norm_num⟩

/-- C2 (amended): the vector stage is extensionally the §4.5 procedure with
one more discard criterion: a candidate is emitted iff its raw similarity is
at least `threshold` AND its overlap is at least 0.3 AND its fused score is
at least `threshold` AND its item's answer prefix was not already emitted,
stopping once `top_k` results are accumulated. -/
theorem c2_neural_emission_amended (st : SearcherState) (q : List Char)
    (cands : List (ℚ × Nat)) (topk : Nat) (th : ℚ) (h : 1 ≤ topk) :
    neural_search st q cands topk th = neuralSpecSearch st q cands topk th := by
  unfold neural_search neuralSpecSearch
  rw [emitSpec_eq_loop st q th topk cands [] [] (by simp) (by simp only [List.length_nil]; omega)]
  simp

/-- Witness for C2 (amended) at the concrete base `kbC2`. -/
theorem c2_witness :
    neural_search (buildState kbC2) "alpha beta gamma".toList [(1, 0)] 3 (11/20) =
      neuralSpecSearch (buildState kbC2) "alpha beta gamma".toList [(1, 0)] 3 (11/20) :=
  c2_neural_emission_amended (buildState kbC2) "alpha beta gamma".toList [(1, 0)] 3 (11/20)
    (by omega)

/-! ## C8 and C9: score bounds, ordering, and deduplication -/

theorem contrib_bounds (qw : List Char) (mws : List (List Char)) :
    0 ≤ (if qw ∈ mws then (1:ℚ) else stemContrib qw mws) ∧
    (if qw ∈ mws then (1:ℚ) else stemContrib qw mws) ≤ 1 := by
  by_cases h : qw ∈ mws
  · simp [h]
  · simp only [h, if_false, stemContrib]
    split_ifs <;> norm_num

theorem fold_contrib_bounds (mws : List (List Char)) :
    ∀ (l : List (List Char)) (a : ℚ),
      a ≤ l.foldl (fun acc qw => acc + (if qw ∈ mws then 1 else stemContrib qw mws)) a ∧
      l.foldl (fun acc qw => acc + (if qw ∈ mws then 1 else stemContrib qw mws)) a
        ≤ a + l.length := by
  intro l
  induction l with
  | nil => intro a; simp
  | cons x rest ih =>
    intro a
    rw [List.foldl_cons]
    obtain ⟨hlo, hhi⟩ := ih (a + (if x ∈ mws then 1 else stemContrib x mws))
    have hc := contrib_bounds x mws
    constructor
    · linarith
    · have hlen : ((x :: rest).length : ℚ) = rest.length + 1 := by
        push_cast [List.length_cons]
        ring
      rw [hlen]
      linarith

theorem overlap_nonneg (q m : List Char) : 0 ≤ calculate_word_overlap q m := by
  unfold calculate_word_overlap
  by_cases h : get_significant_words q = []
  · simp [h]
  · rw [if_neg h]
    apply div_nonneg
    · have := (fold_contrib_bounds (get_significant_words m) (get_significant_words q) 0).1
      linarith
    · exact Nat.cast_nonneg _

theorem overlap_le_one (q m : List Char) : calculate_word_overlap q m ≤ 1 := by
  unfold calculate_word_overlap
  by_cases h : get_significant_words q = []
  · simp [h]
  · rw [if_neg h]
    have hpos : (0:ℚ) < (get_significant_words q).length := by
      have := List.length_pos.mpr h
      exact_mod_cast this
    rw [div_le_one hpos]
    have := (fold_contrib_bounds (get_significant_words m) (get_significant_words q) 0).2
    linarith

theorem neuralLoop_score_bounds (st : SearcherState) (q : List Char) (th : ℚ) :
    ∀ (cands : List (ℚ × Nat)) (seen : List (List Char)) (rem : Nat),
      (∀ p ∈ cands, p.1 ≤ 1) →
      ∀ r ∈ neuralLoop st q th cands seen rem, th ≤ r.score ∧ r.score ≤ 1 := by
  intro cands
  induction cands with
  | nil => intro seen rem _ r hr; simp [neuralLoop] at hr
  | cons c rest ih =>
    obtain ⟨raw, idx⟩ := c
    intro seen rem hc r hr
    have hrest : ∀ p ∈ rest, p.1 ≤ 1 := fun p hp => hc p (List.mem_cons_of_mem _ hp)
    simp only [neuralLoop] at hr
    split_ifs at hr with h1 h2 h3 h4 h5
    · exact ih seen rem hrest r hr
    · exact ih seen rem hrest r hr
    · exact ih seen rem hrest r hr
    · exact ih seen rem hrest r hr
    · rcases List.mem_singleton.mp hr with rfl
      refine ⟨not_lt.mp h3, ?_⟩
      have hraw : raw ≤ 1 := hc (raw, idx) (List.mem_cons_self _ _)
      have hov1 := overlap_le_one q ((allQuestions st).getD idx [])
      simp only
      linarith
    · rcases List.mem_cons.mp hr with rfl | hr2
      · refine ⟨not_lt.mp h3, ?_⟩
        have hraw : raw ≤ 1 := hc (raw, idx) (List.mem_cons_self _ _)
        have hov1 := overlap_le_one q ((allQuestions st).getD idx [])
        simp only
        linarith
      · exact ih _ _ hrest r hr2

theorem mem_insertDesc {r x : SearchResult} :
    ∀ {l : List SearchResult}, x ∈ insertDesc r l ↔ x = r ∨ x ∈ l := by
  intro l
  induction l with
  | nil => simp [insertDesc]
  | cons y ys ih =>
    simp only [insertDesc]
    split_ifs with h
    · simp [List.mem_cons]
    · rw [List.mem_cons, ih, List.mem_cons]
      tauto

theorem insertDesc_perm (r : SearchResult) :
    ∀ (l : List SearchResult), List.Perm (insertDesc r l) (r :: l) := by
  intro l
  induction l with
  | nil => exact List.Perm.refl _
  | cons y ys ih =>
    simp only [insertDesc]
    split_ifs with h
    · exact List.Perm.refl _
    · exact (ih.cons y).trans (List.Perm.swap r y ys)

theorem sortDesc_perm (l : List SearchResult) : List.Perm (sortDesc l) l := by
  have aux : ∀ (l acc : List SearchResult),
      List.Perm (l.foldl (fun acc r => insertDesc r acc) acc) (l ++ acc) := by
    intro l
    induction l with
    | nil => intro acc; simp
    | cons r rest ih =>
      intro acc
      rw [List.foldl_cons]
      refine (ih _).trans ?_
      refine (List.Perm.append_left rest (insertDesc_perm r acc)).trans ?_
      exact List.perm_middle
  simpa [sortDesc] using aux l []

theorem insertDesc_sorted {r : SearchResult} :
    ∀ {l : List SearchResult}, l.Pairwise (fun a b => b.score ≤ a.score) →
      (insertDesc r l).Pairwise (fun a b => b.score ≤ a.score) := by
  intro l
  induction l with
  | nil => intro _; simp [insertDesc]
  | cons y ys ih =>
    intro h
    rw [List.pairwise_cons] at h
    obtain ⟨hy, hys⟩ := h
    simp only [insertDesc]
    split_ifs with hlt
    · rw [List.pairwise_cons]
      refine ⟨?_, ?_⟩
      · intro b hb
        rcases List.mem_cons.mp hb with rfl | hb2
        · exact le_of_lt hlt
        · exact le_trans (hy b hb2) (le_of_lt hlt)
      · rw [List.pairwise_cons]
        exact ⟨hy, hys⟩
    · rw [List.pairwise_cons]
      refine ⟨?_, ih hys⟩
      intro b hb
      rcases mem_insertDesc.mp hb with rfl | hb2
      · exact not_lt.mp hlt
      · exact hy b hb2

theorem sortDesc_sorted (l : List SearchResult) :
    (sortDesc l).Pairwise (fun a b => b.score ≤ a.score) := by
  have aux : ∀ (l acc : List SearchResult),
      acc.Pairwise (fun a b => b.score ≤ a.score) →
      (l.foldl (fun acc r => insertDesc r acc) acc).Pairwise
        (fun a b => b.score ≤ a.score) := by
    intro l
    induction l with
    | nil => intro acc h; simpa using h
    | cons r rest ih =>
      intro acc h
      rw [List.foldl_cons]
      exact ih _ (insertDesc_sorted h)
  exact aux l [] (by simp)

theorem fuzzyLoop_from (st : SearcherState) (q : List Char) :
    ∀ (ms : List (List Char × ℚ)) (seen : List (List Char)) (rem : Nat),
      ∀ r ∈ fuzzyLoop st q ms seen rem, ∃ p ∈ ms, ¬(p.2 < 70) ∧ r.score = p.2 / 100 := by
  intro ms
  induction ms with
  | nil => intro seen rem r hr; simp [fuzzyLoop] at hr
  | cons p rest ih =>
    obtain ⟨text, m⟩ := p
    intro seen rem r hr
    simp only [fuzzyLoop] at hr
    split_ifs at hr with h1 h2 h3 h4
    · obtain ⟨p2, hp2, h⟩ := ih _ _ r hr
      exact ⟨p2, List.mem_cons_of_mem _ hp2, h⟩
    · obtain ⟨p2, hp2, h⟩ := ih _ _ r hr
      exact ⟨p2, List.mem_cons_of_mem _ hp2, h⟩
    · obtain ⟨p2, hp2, h⟩ := ih _ _ r hr
      exact ⟨p2, List.mem_cons_of_mem _ hp2, h⟩
    · rcases List.mem_singleton.mp hr with rfl
      exact ⟨(text, m), List.mem_cons_self _ _, h1, rfl⟩
    · rcases List.mem_cons.mp hr with rfl | hr2
      · exact ⟨(text, m), List.mem_cons_self _ _, h1, rfl⟩
      · obtain ⟨p2, hp2, h⟩ := ih _ _ r hr2
        exact ⟨p2, List.mem_cons_of_mem _ hp2, h⟩

theorem fuzzyLoop_sorted (st : SearcherState) (q : List Char) :
    ∀ (ms : List (List Char × ℚ)) (seen : List (List Char)) (rem : Nat),
      ms.Pairwise (fun a b => b.2 ≤ a.2) →
      (fuzzyLoop st q ms seen rem).Pairwise (fun a b => b.score ≤ a.score) := by
  intro ms
  induction ms with
  | nil => intro seen rem _; simp [fuzzyLoop]
  | cons p rest ih =>
    obtain ⟨text, m⟩ := p
    intro seen rem hp
    rw [List.pairwise_cons] at hp
    obtain ⟨hm, hrest⟩ := hp
    simp only [fuzzyLoop]
    split_ifs with h1 h2 h3 h4
    · exact ih _ _ hrest
    · exact ih _ _ hrest
    · exact ih _ _ hrest
    · simp
    · rw [List.pairwise_cons]
      constructor
      · intro b hb
        obtain ⟨p2, hp2, _, hscore⟩ := fuzzyLoop_from st q rest _ _ b hb
        have hle := hm p2 hp2
        rw [hscore]
        simp only
        exact (div_le_div_iff_of_pos_right (by norm_num)).mpr hle
      · exact ih _ _ hrest

theorem neuralLoop_dedup (st : SearcherState) (q : List Char) (th : ℚ) :
    ∀ (cands : List (ℚ × Nat)) (seen : List (List Char)) (rem : Nat),
      (neuralLoop st q th cands seen rem).Pairwise
        (fun a b => a.answer.take 100 ≠ b.answer.take 100) ∧
      ∀ r ∈ neuralLoop st q th cands seen rem, r.answer.take 100 ∉ seen := by
  intro cands
  induction cands with
  | nil => intro seen rem; simp [neuralLoop]
  | cons c rest ih =>
    obtain ⟨raw, idx⟩ := c
    intro seen rem
    simp only [neuralLoop]
    split_ifs with h1 h2 h3 h4 h5
    · exact ih seen rem
    · exact ih seen rem
    · exact ih seen rem
    · exact ih seen rem
    · refine ⟨by simp, ?_⟩
      intro r hr
      rcases List.mem_singleton.mp hr with rfl
      exact h4
    · obtain ⟨hpw, hni⟩ := ih (answerKey (questionToAnswer st ((allQuestions st).getD idx [])) :: seen) (rem - 1)
      constructor
      · rw [List.pairwise_cons]
        refine ⟨?_, hpw⟩
        intro b hb heq
        exact (hni b hb) (heq ▸ List.mem_cons_self _ _)
      · intro r hr
        rcases List.mem_cons.mp hr with rfl | hr2
        · exact h4
        · exact fun hmem => (hni r hr2) (List.mem_cons_of_mem _ hmem)

theorem fuzzyLoop_dedup (st : SearcherState) (q : List Char) :
    ∀ (ms : List (List Char × ℚ)) (seen : List (List Char)) (rem : Nat),
      (fuzzyLoop st q ms seen rem).Pairwise
        (fun a b => a.answer.take 100 ≠ b.answer.take 100) ∧
      ∀ r ∈ fuzzyLoop st q ms seen rem, r.answer.take 100 ∉ seen := by
  intro ms
  induction ms with
  | nil => intro seen rem; simp [fuzzyLoop]
  | cons p rest ih =>
    obtain ⟨text, m⟩ := p
    intro seen rem
    simp only [fuzzyLoop]
    split_ifs with h1 h2 h3 h4
    · exact ih seen rem
    · exact ih seen rem
    · exact ih seen rem
    · refine ⟨by simp, ?_⟩
      intro r hr
      rcases List.mem_singleton.mp hr with rfl
      exact h3
    · obtain ⟨hpw, hni⟩ := ih (answerKey (questionToAnswer st text) :: seen) (rem - 1)
      constructor
      · rw [List.pairwise_cons]
        refine ⟨?_, hpw⟩
        intro b hb heq
        exact (hni b hb) (heq ▸ List.mem_cons_self _ _)
      · intro r hr
        rcases List.mem_cons.mp hr with rfl | hr2
        · exact h3
        · exact fun hmem => (hni r hr2) (List.mem_cons_of_mem _ hmem)

theorem checkKeyword_score {q k : List Char} {it : KnowledgeItem} {r : SearchResult}
    (h : checkKeyword q k it = some r) : 0 ≤ r.score ∧ r.score ≤ 1 := by
  unfold checkKeyword at h
  split_ifs at h
  · injection h with h
    subst h
    constructor <;> norm_num
  · injection h with h
    subst h
    constructor <;> norm_num
  · injection h with h
    subst h
    constructor <;> norm_num
  · injection h with h
    subst h
    constructor <;> norm_num

theorem search_ok_cases {kb : List KnowledgeItem} {embed : Except Unit (List (ℚ × Nat))}
    {fm : List (List Char × ℚ)} {query : List Char} {topk : Nat} {th : ℚ}
    {l : List SearchResult}
    (hres : search kb embed fm query topk th = .ok l) :
    l = [] ∨
    (∃ r, check_keywords (buildState kb) (clean_text query) = some r ∧ l = [r]) ∨
    (∃ cands, embed = .ok cands ∧
        l = neural_search (buildState kb) (clean_text query) cands topk th) ∨
    (l = fuzzy_search (buildState kb) (clean_text query) fm topk) := by
  unfold search searchWith at hres
  by_cases h0 : query = [] ∨ (buildState kb).phrases = []
  · rw [if_pos h0] at hres
    simp only [Except.ok.injEq] at hres
    exact Or.inl hres.symm
  · rw [if_neg h0] at hres
    by_cases hlen : (clean_text query).length < 2
    · rw [if_pos hlen] at hres
      simp only [Except.ok.injEq] at hres
      exact Or.inl hres.symm
    · rw [if_neg hlen] at hres
      cases hkw : check_keywords (buildState kb) (clean_text query) with
      | some r =>
        simp only [hkw, Except.ok.injEq] at hres
        exact Or.inr (Or.inl ⟨r, rfl, hres.symm⟩)
      | none =>
        simp only [hkw] at hres
        by_cases hg1 : get_significant_words query = [] ∧
            has_relevant_words (buildState kb) query = false
        · rw [if_pos hg1] at hres
          simp only [Except.ok.injEq] at hres
          exact Or.inl hres.symm
        · rw [if_neg hg1] at hres
          by_cases hg2 : has_relevant_words (buildState kb) query = false
          · rw [if_pos hg2] at hres
            simp only [Except.ok.injEq] at hres
            exact Or.inl hres.symm
          · rw [if_neg hg2] at hres
            cases embed with
            | error e => simp at hres
            | ok cands =>
              have hres2 : (if neural_search (buildState kb) (clean_text query) cands topk th = []
                  then (Except.ok (fuzzy_search (buildState kb) (clean_text query) fm topk) :
                    Except Unit (List SearchResult))
                  else Except.ok (neural_search (buildState kb) (clean_text query) cands topk th)) =
                  Except.ok l := hres
              by_cases hnr : neural_search (buildState kb) (clean_text query) cands topk th = []
              · rw [if_pos hnr] at hres2
                simp only [Except.ok.injEq] at hres2
                exact Or.inr (Or.inr (Or.inr hres2.symm))
              · rw [if_neg hnr] at hres2
                simp only [Except.ok.injEq] at hres2
                exact Or.inr (Or.inr (Or.inl ⟨cands, rfl, hres2.symm⟩))

/-- C8: under the external contracts — embedder similarities at most 1 (cosine
of L2-normalized vectors) and extract scores in [0,100] sorted descending —
every score returned by search lies in [0,1] and the returned sequence is
sorted non-increasing by score, on each of the keyword, neural, and fuzzy
paths. -/
theorem c8_scores_sorted (kb : List KnowledgeItem) (embed : Except Unit (List (ℚ × Nat)))
    (fm : List (List Char × ℚ)) (query : List Char) (topk : Nat) (th : ℚ)
    (l : List SearchResult)
    (htopk : 1 ≤ topk) (hth0 : 0 ≤ th) (hth1 : th ≤ 1)
    (hemb : ∀ cands, embed = .ok cands → ∀ p ∈ cands, p.1 ≤ 1)
    (hfm : ∀ p ∈ fm, p.2 ≤ 100)
    (hfms : fm.Pairwise (fun a b => b.2 ≤ a.2))
    (hres : search kb embed fm query topk th = .ok l) :
    (∀ r ∈ l, 0 ≤ r.score ∧ r.score ≤ 1) ∧
    l.Pairwise (fun a b => b.score ≤ a.score) := by
  rcases search_ok_cases hres with rfl | ⟨r, hck, rfl⟩ | ⟨cands, hcands, rfl⟩ | rfl
  · exact ⟨by simp, by simp⟩
  · unfold check_keywords at hck
    obtain ⟨p, _, hcheck⟩ := exists_of_findSome hck
    refine ⟨?_, by simp⟩
    intro r' hr'
    rcases List.mem_singleton.mp hr' with rfl
    exact checkKeyword_score hcheck
  · constructor
    · intro r hr
      have hmem : r ∈ neuralLoop (buildState kb) (clean_text query) th cands [] topk :=
        (sortDesc_perm _).subset hr
      have hb := neuralLoop_score_bounds (buildState kb) (clean_text query) th cands [] topk
        (hemb cands hcands) r hmem
      exact ⟨le_trans hth0 hb.1, hb.2⟩
    · exact sortDesc_sorted _
  · constructor
    · intro r hr
      obtain ⟨p, hp, hge, hsc⟩ := fuzzyLoop_from (buildState kb) (clean_text query) fm [] topk r hr
      have h100 := hfm p hp
      have h70 : (70:ℚ) ≤ p.2 := not_lt.mp hge
      rw [hsc]
      constructor
      · exact div_nonneg (by linarith) (by norm_num)
      · rw [div_le_one (by norm_num)]
        exact h100
    · exact fuzzyLoop_sorted (buildState kb) (clean_text query) fm [] topk hfms

/-- Witness for C8 at the concrete base `kbC1` and the keyword query. -/
theorem c8_witness :
    (∀ r ∈ [(⟨itC1a.question, itC1a.answer, 1, .keyword_exact, none, none, none⟩ :
        SearchResult)], 0 ≤ r.score ∧ r.score ≤ 1) ∧
    List.Pairwise (fun a b => b.score ≤ a.score)
      [(⟨itC1a.question, itC1a.answer, 1, .keyword_exact, none, none, none⟩ : SearchResult)] :=
  c8_scores_sorted kbC1 (.ok []) [] "abcdef".toList 1 (11/20)
    [⟨itC1a.question, itC1a.answer, 1, .keyword_exact, none, none, none⟩]
    (by omega) (by norm_num) (by norm_num)
    (by intro cands h p hp; injection h with h; subst h; simp at hp)
    (by simp) (by simp)
    (by with_unfolding_all decide)

/-- C9: no two results in one returned response share the first 100
characters of their answer, on every path. -/
theorem c9_dedup (kb : List KnowledgeItem) (embed : Except Unit (List (ℚ × Nat)))
    (fm : List (List Char × ℚ)) (query : List Char) (topk : Nat) (th : ℚ)
    (l : List SearchResult)
    (hres : search kb embed fm query topk th = .ok l) :
    l.Pairwise (fun a b => a.answer.take 100 ≠ b.answer.take 100) := by
  rcases search_ok_cases hres with rfl | ⟨r, _, rfl⟩ | ⟨cands, _, rfl⟩ | rfl
  · simp
  · simp
  · exact ((sortDesc_perm _).pairwise_iff (fun {a b} h e => h e.symm)).mpr
      (neuralLoop_dedup (buildState kb) (clean_text query) th cands [] topk).1
  · exact (fuzzyLoop_dedup (buildState kb) (clean_text query) fm [] topk).1

/-- Witness for C9 at the concrete base `kbC1` and the keyword query. -/
theorem c9_witness :
    List.Pairwise (fun a b : SearchResult => a.answer.take 100 ≠ b.answer.take 100)
      [(⟨itC1a.question, itC1a.answer, 1, .keyword_exact, none, none, none⟩ : SearchResult)] :=
  c9_dedup kbC1 (.ok []) [] "abcdef".toList 2 (11/20)
    [⟨itC1a.question, itC1a.answer, 1, .keyword_exact, none, none, none⟩]
    (by with_unfolding_all decide)

end Novsu
